import Mathlib

/-!
Verification development for the LocalRAG Pro repository: a shallow
embedding of the core engine described in the specification (text chunker,
vector store with two backends, ingestion pipeline, retrieval engine) and
of the React frontend components present in the source tree
(`App.handleDrop`, `ChatPanel.send`), together with theorems settling the
frozen claims about them.

The repository ships only the README and the React frontend under `src/`;
the Rust backend and the Node vector-store helper are not part of the
source drop.  Definitions for those components are therefore modelled from
the specification text and are marked `Modelled from the spec:` in their
doc comments.  Frontend definitions are translated from the TypeScript
source directly.
-/

namespace LocalRAG

/-! ## Definitions: shallow embedding of the engine and frontend -/

/-- Dot product of two vectors, represented as lists of rationals. -/
def dot (a b : List ℚ) : ℚ := (List.zipWith (· * ·) a b).sum

/-- Squared Euclidean norm of a vector. -/
def norm2 (a : List ℚ) : ℚ := dot a a

/-- Modelled from the spec: the Node helper (absent from `src/`) scores
entries by cosine similarity.  Cosine involves an irrational square root,
so the model uses the order- and range-preserving encoding
`sign(d) * d^2 / (|a|^2 * |b|^2)` where `d` is the dot product: it is the
signed square of the cosine, strictly monotone in it, with the same range
`[-1, 1]`, and exactly computable over ℚ.  Division by a zero denominator
yields 0 (the degenerate zero-vector case). -/
def cosScore (a b : List ℚ) : ℚ := (dot a b * |dot a b|) / (norm2 a * norm2 b)

/-- Persisted form of a chunk, from the spec data model: id, parent
document id, embedding vector, and the metadata needed to reconstruct
context (path, character offsets, raw text), plus the chunk ordinal used
for the deterministic tie-break. -/
structure VectorStoreEntry where
  id : String
  documentId : String
  vector : List ℚ
  path : String
  start : ℕ
  stop : ℕ
  text : List Char
  ordinal : ℕ
deriving DecidableEq, Repr

/-- Boolean lexicographic order on character lists, standing in for the
code-unit string comparison the JavaScript helper performs on paths. -/
def charsLt : List Char → List Char → Bool
  | [], [] => false
  | [], _ :: _ => true
  | _ :: _, [] => false
  | a :: as, b :: bs => if a < b then true else if b < a then false else charsLt as bs

/-- Modelled from the spec: ranking order used by `query` — descending
similarity score, ties broken by ascending document path, then ascending
chunk ordinal.  `entryLe v a b` means `a` ranks no later than `b` for
query vector `v`. -/
def entryLe (v : List ℚ) (a b : VectorStoreEntry) : Bool :=
  let sa := cosScore a.vector v
  let sb := cosScore b.vector v
  if sa = sb then
    if a.path = b.path then decide (a.ordinal ≤ b.ordinal)
    else charsLt a.path.data b.path.data
  else decide (sb < sa)

/-- Propositional form of the ranking order: strictly higher score, or
equal score and the (path, ordinal) tie-break. -/
def EntryOrder (v : List ℚ) (a b : VectorStoreEntry) : Prop :=
  cosScore b.vector v < cosScore a.vector v ∨
    (cosScore a.vector v = cosScore b.vector v ∧
      ((a.path ≠ b.path ∧ charsLt a.path.data b.path.data = true) ∨
       (a.path = b.path ∧ a.ordinal ≤ b.ordinal)))

/-- Ordered (stable) insertion: `x` is placed after every prefix element
it does not strictly outrank. -/
def oinsert {α : Type} (le : α → α → Bool) (x : α) : List α → List α
  | [] => [x]
  | y :: ys => if le y x then y :: oinsert le x ys else x :: y :: ys

/-- Sort a list by folding ordered insertion over it. -/
def sortStream {α : Type} (le : α → α → Bool) (l : List α) : List α :=
  l.foldl (fun acc x => oinsert le x acc) []

/-- Modelled from the spec: `upsert` of a single entry — inserts or
replaces by id. -/
def upsertOne (store : List VectorStoreEntry) (e : VectorStoreEntry) :
    List VectorStoreEntry :=
  if store.any (fun x => x.id == e.id) then
    store.map (fun x => if x.id == e.id then e else x)
  else store ++ [e]

/-- Modelled from the spec: `upsert(entries)` inserts or replaces entries
by id, one after the other. -/
def upsert (store : List VectorStoreEntry) (es : List VectorStoreEntry) :
    List VectorStoreEntry :=
  es.foldl upsertOne store

/-- Modelled from the spec: `count()` — number of stored entries. -/
def count (store : List VectorStoreEntry) : ℕ := store.length

/-- Modelled from the spec: `delete(ids)` removes entries; deleting a
non-existent id is not an error. -/
def delete_entries (store : List VectorStoreEntry) (ids : List String) :
    List VectorStoreEntry :=
  store.filter (fun e => !(ids.contains e.id))

/-- Modelled from the spec: `delete_by_document(document_id)` removes all
entries belonging to a document. -/
def delete_by_document (store : List VectorStoreEntry) (docId : String) :
    List VectorStoreEntry :=
  store.filter (fun e => !(e.documentId == docId))

/-- Modelled from the spec: Backend B (JSON fallback) `query` — a
brute-force linear scan scoring every entry by cosine similarity against
the query vector, sorted by the deterministic ranking order and truncated
to `k`. -/
def queryB (store : List VectorStoreEntry) (v : List ℚ) (k : ℕ) :
    List (VectorStoreEntry × ℚ) :=
  ((sortStream (entryLe v) store).take k).map (fun e => (e, cosScore e.vector v))

/-- Modelled from the spec: Backend A (native indexed engine, the LanceDB
helper absent from `src/`) `query` — modelled as the streaming bounded
top-k selection an index maintains: each entry is inserted in rank order
into a candidate list capped at `k`.  The spec requires it to produce
bit-identical ranking semantics to Backend B. -/
def queryA (store : List VectorStoreEntry) (v : List ℚ) (k : ℕ) :
    List (VectorStoreEntry × ℚ) :=
  (store.foldl (fun acc e => (oinsert (entryLe v) e acc).take k) []).map
    (fun e => (e, cosScore e.vector v))

/-- One chunk produced by the Text Chunker: character offsets
`[start, stop)` into the extracted text, and the raw text slice. -/
structure Chunk where
  start : ℕ
  stop : ℕ
  text : List Char
deriving DecidableEq, Repr

/-- Modelled from the spec: the chunker (Rust backend, absent from
`src/`) emits chunks whose start offsets advance by
`chunk_size − overlap`, each chunk holding up to `chunk_size` characters,
the final one clipped to the end of the text. -/
def chunkGo (cs ov : ℕ) (T : List Char) (start : ℕ) : List Chunk :=
  if h : start < T.length ∧ ov < cs then
    { start := start, stop := min (start + cs) T.length,
      text := (T.drop start).take cs } :: chunkGo cs ov T (start + (cs - ov))
  else []
termination_by T.length - start
decreasing_by
  have h1 : 0 < cs - ov := Nat.sub_pos_of_lt h.2
  omega

/-- Modelled from the spec: the Text Chunker contract of §4.1, starting at
offset 0. -/
def chunkText (cs ov : ℕ) (T : List Char) : List Chunk := chunkGo cs ov T 0

/-- Concatenation of the chunk texts with the `overlap`-character prefix
of every chunk after the first removed. -/
def reconstruct (ov : ℕ) : List Chunk → List Char
  | [] => []
  | c :: rest => c.text ++ (rest.map (fun d => d.text.drop ov)).flatten

/-- A file as seen by the folder scan: path, content hash, modification
time and extracted text. -/
structure SrcFile where
  path : String
  hash : ℕ
  mtime : ℕ
  text : List Char
deriving DecidableEq, Repr

/-- Document record owned by the Ingestion Pipeline: absolute path,
content hash, last-modified timestamp. -/
structure DocRecord where
  path : String
  hash : ℕ
  mtime : ℕ
deriving DecidableEq, Repr

/-- State threaded through one ingestion pass: the document records, the
vector store contents, and the number of embedding calls made so far. -/
structure IngestState where
  docs : List DocRecord
  store : List VectorStoreEntry
  embedCalls : ℕ
deriving Repr

/-- Build the persisted entry for one chunk of a file: the id is derived
from the document id and the ordinal. -/
def mkEntry (f : SrcFile) (embed : List Char → List ℚ) (p : ℕ × Chunk) :
    VectorStoreEntry :=
  { id := f.path ++ ("#" ++ toString p.1)
    documentId := f.path
    vector := embed p.2.text
    path := f.path
    start := p.2.start
    stop := p.2.stop
    text := p.2.text
    ordinal := p.1 }

/-- Modelled from the spec: full reprocessing of a changed or new file —
chunk, embed in batches (counted as one embedding call for the file's
batch when it has any chunks), delete the document's old entries, then
upsert the new set, and refresh the document record. -/
def reindexFile (embed : List Char → List ℚ) (cs ov : ℕ) (st : IngestState)
    (f : SrcFile) : IngestState :=
  let chunks := chunkText cs ov f.text
  let entries := chunks.enum.map (mkEntry f embed)
  { docs :=
      (st.docs.filter (fun d => !(d.path == f.path))) ++
        [{ path := f.path, hash := f.hash, mtime := f.mtime }]
    store := upsert (delete_by_document st.store f.path) entries
    embedCalls := st.embedCalls + (if chunks.isEmpty then 0 else 1) }

/-- Modelled from the spec: per-file step of a pass (§4.4 step 2–4) — if a
document record exists with identical hash, skip (updating only the mtime
when it differs); otherwise reprocess the file. -/
def processFile (embed : List Char → List ℚ) (cs ov : ℕ) (st : IngestState)
    (f : SrcFile) : IngestState :=
  match st.docs.find? (fun d => d.path == f.path) with
  | some d =>
      if d.hash == f.hash then
        if d.mtime == f.mtime then st
        else
          { st with
            docs := st.docs.map (fun r =>
              if r.path == f.path then { r with mtime := f.mtime } else r) }
      else reindexFile embed cs ov st f
  | none => reindexFile embed cs ov st f

/-- Modelled from the spec: one full ingestion pass over a folder (§4.4):
process every enumerated file, then delete the documents whose files are
no longer present. -/
def ingestPass (embed : List Char → List ℚ) (cs ov : ℕ) (files : List SrcFile)
    (st : IngestState) : IngestState :=
  { docs :=
      (files.foldl (processFile embed cs ov) st).docs.filter
        (fun d => files.any (fun f => f.path == d.path))
    store :=
      ((files.foldl (processFile embed cs ov) st).docs.filter
          (fun d => !(files.any (fun f => f.path == d.path)))).foldl
        (fun s d => delete_by_document s d.path)
        (files.foldl (processFile embed cs ov) st).store
    embedCalls := (files.foldl (processFile embed cs ov) st).embedCalls }

/-- Fragment returned by `retrieve`: source path and offsets for citation,
the raw text, and the similarity score. -/
structure ContextFragment where
  path : String
  start : ℕ
  stop : ℕ
  text : List Char
  score : ℚ
deriving DecidableEq, Repr

/-- Two stored chunks overlap when they belong to the same document and
their offset ranges intersect. -/
def fragsOverlap (a b : VectorStoreEntry) : Bool :=
  a.documentId == b.documentId && decide (a.start < b.stop) && decide (b.start < a.stop)

/-- Modelled from the spec: deduplication — walk the candidates in rank
order, dropping any whose offsets intersect an already kept chunk of the
same document (the kept one has the higher score). -/
def dedup (cands : List (VectorStoreEntry × ℚ)) : List (VectorStoreEntry × ℚ) :=
  cands.foldl
    (fun kept c => if kept.any (fun k => fragsOverlap k.1 c.1) then kept else kept ++ [c])
    []

/-- Modelled from the spec: greedy budget fit by score — keep each
fragment, in rank order, whose text still fits in the remaining character
budget. -/
def budgetTake (budget : ℕ) (cands : List (VectorStoreEntry × ℚ)) :
    List (VectorStoreEntry × ℚ) :=
  (cands.foldl
    (fun acc c =>
      if acc.2 + c.1.text.length ≤ budget then (acc.1 ++ [c], acc.2 + c.1.text.length)
      else acc)
    ([], 0)).1

/-- Modelled from the spec: `retrieve(query, k, context_budget)` (§4.5) —
embed the query, over-fetch `3k` candidates from the store, deduplicate
overlapping chunks, and fit the result to the context budget. -/
def retrieve (embed : String → List ℚ) (store : List VectorStoreEntry)
    (q : String) (k budget : ℕ) : List ContextFragment :=
  let cands := queryB store (embed q) (3 * k)
  (budgetTake budget (dedup cands)).map (fun c =>
    { path := c.1.path, start := c.1.start, stop := c.1.stop
      text := c.1.text, score := c.2 })

/-- Message roles used by the chat panel. -/
inductive Role where
  | user
  | assistant
  | sys
deriving DecidableEq, Repr

/-- Chat message as defined in Chat.tsx. -/
structure Message where
  id : String
  role : Role
  content : String
  timestamp : Option String
deriving DecidableEq, Repr

/-- React state of the chat panel: the message list and the input field. -/
structure ChatState where
  messages : List Message
  input : String
deriving DecidableEq, Repr

/-- Arguments of one `invoke` of the chat_query backend command. -/
structure ChatCall where
  query : String
  history : List Message
deriving DecidableEq, Repr

/-- Translation of `send` in ChatPanel: return early on empty (falsy)
input; otherwise append the user message, clear the input, invoke
chat_query with the content and the closed-over (pre-append) message
list, and append the assistant reply, defaulting to a fixed string when
the response answer is missing or empty.  The fresh ids and timestamps
(`Date.now()`, `toISOString()`) enter as parameters. -/
def send (st : ChatState) (respond : String → List Message → Option String)
    (nowId nowIso laterId laterIso : String) : ChatState × Option ChatCall :=
  if st.input = "" then (st, none)
  else
    let userMsg : Message :=
      { id := nowId, role := Role.user, content := st.input, timestamp := some nowIso }
    let call : ChatCall := { query := userMsg.content, history := st.messages }
    let answer : String :=
      match respond call.query call.history with
      | some a => if a = "" then "No answer." else a
      | none => "No answer."
    let assistantMsg : Message :=
      { id := laterId, role := Role.assistant, content := answer, timestamp := some laterIso }
    ({ messages := st.messages ++ [userMsg, assistantMsg], input := "" }, some call)

/-- Observable effects of `handleDrop`, in program order. -/
inductive AppEvent where
  | setFolder (path : String)
  | setIndexed (b : Bool)
  | invokeIndex (folder : String)
  | alertError (msg : String)
deriving DecidableEq, Repr

/-- React state of App that handleDrop touches. -/
structure AppState where
  selectedFolder : Option String
  indexed : Bool
deriving DecidableEq, Repr

/-- Translation of `handleDrop` in App.tsx: set the selected folder, clear
the indexed flag, await index_folder, then mark indexed on success or
surface the error (leaving the flag clear) on rejection.  The result of
the `invoke` enters as a parameter. -/
def handleDrop (path : String) (result : Except String Unit) : List AppEvent :=
  [AppEvent.setFolder path, AppEvent.setIndexed false, AppEvent.invokeIndex path] ++
    match result with
    | Except.ok _ => [AppEvent.setIndexed true]
    | Except.error e => [AppEvent.alertError ("Indexing failed: " ++ e)]

/-- Effect of one event on the App state. -/
def applyEvent (s : AppState) : AppEvent → AppState
  | AppEvent.setFolder p => { s with selectedFolder := some p }
  | AppEvent.setIndexed b => { s with indexed := b }
  | AppEvent.invokeIndex _ => s
  | AppEvent.alertError _ => s

/-- Replay of a sequence of events over a state. -/
def applyEvents (s : AppState) (es : List AppEvent) : AppState :=
  es.foldl applyEvent s

/-- Sample entry used by witness theorems: document a, unit vector on the
first axis. -/
def sampleEntryA : VectorStoreEntry :=
  { id := "a", documentId := "a", vector := [1, 0], path := "a",
    start := 0, stop := 1, text := ['x'], ordinal := 0 }

/-- Sample entry used by witness theorems: document b, unit vector on the
second axis. -/
def sampleEntryB : VectorStoreEntry :=
  { id := "b", documentId := "b", vector := [0, 1], path := "b",
    start := 0, stop := 1, text := ['y'], ordinal := 0 }

/-- Sample entry of document d1, used by the deletion witness. -/
def sampleEntryD1 : VectorStoreEntry :=
  { id := "c1", documentId := "d1", vector := [1], path := "c",
    start := 0, stop := 1, text := ['x'], ordinal := 0 }

/-- Sample entry of document d2, used by the deletion witness. -/
def sampleEntryD2 : VectorStoreEntry :=
  { id := "c2", documentId := "d2", vector := [1], path := "d",
    start := 0, stop := 1, text := ['y'], ordinal := 0 }

/-! ## Theorems -/

theorem norm2_nonneg (a : List ℚ) : 0 ≤ norm2 a := by
  unfold norm2 dot
  induction a with
  | nil => simp
  | cons x xs ih =>
      simp only [List.zipWith_cons_cons, List.sum_cons]
      exact add_nonneg (mul_self_nonneg x) ih

/-- Cauchy–Schwarz for the list dot product. -/
theorem dot_sq_le (a : List ℚ) : ∀ b : List ℚ, (dot a b) ^ 2 ≤ norm2 a * norm2 b := by
  induction a with
  | nil =>
      intro b
      simp [dot, norm2]
  | cons x xs ih =>
      intro b
      cases b with
      | nil =>
          have := mul_nonneg (norm2_nonneg (x :: xs)) (norm2_nonneg [])
          simpa [dot] using this
      | cons y ys =>
          have hmain : (dot xs ys) ^ 2 ≤ norm2 xs * norm2 ys := ih ys
          have hna : 0 ≤ norm2 xs := norm2_nonneg xs
          have hnb : 0 ≤ norm2 ys := norm2_nonneg ys
          have hx : dot (x :: xs) (y :: ys) = x * y + dot xs ys := by
            simp [dot]
          have hn1 : norm2 (x :: xs) = x * x + norm2 xs := by
            simp [norm2, dot]
          have hn2 : norm2 (y :: ys) = y * y + norm2 ys := by
            simp [norm2, dot]
          rw [hx, hn1, hn2]
          set d := dot xs ys with hd
          set na := norm2 xs with hna2
          set nb := norm2 ys with hnb2
          rcases eq_or_lt_of_le hnb with h0 | hpos
          · have hd0 : d = 0 := by nlinarith [sq_nonneg d]
            rw [hd0]
            nlinarith [sq_nonneg (x * y), mul_nonneg hna (sq_nonneg y)]
          · have h1 : 0 ≤ (x * nb - y * d) ^ 2 + y ^ 2 * (na * nb - d ^ 2) :=
              add_nonneg (sq_nonneg _) (mul_nonneg (sq_nonneg y) (by linarith))
            have key : 0 ≤ x * x * nb + y * y * na - 2 * x * y * d := by nlinarith [h1]
            nlinarith [key, hmain]

/-- The signed-square cosine score always lies in `[-1, 1]`. -/
theorem cosScore_mem_Icc (a b : List ℚ) : -1 ≤ cosScore a b ∧ cosScore a b ≤ 1 := by
  unfold cosScore
  set d := dot a b with hd
  have hcs : d ^ 2 ≤ norm2 a * norm2 b := dot_sq_le a b
  have hnn : 0 ≤ norm2 a * norm2 b := mul_nonneg (norm2_nonneg a) (norm2_nonneg b)
  rcases eq_or_lt_of_le hnn with h0 | hpos
  · rw [← h0, div_zero]
    constructor <;> norm_num
  · have habs : abs (d * |d|) = d ^ 2 := by
      rw [abs_mul, abs_abs, abs_mul_abs_self, ← pow_two]
    have hb : abs (d * |d| / (norm2 a * norm2 b)) ≤ 1 := by
      rw [abs_div, abs_of_pos hpos, div_le_one hpos, habs]
      exact hcs
    exact abs_le.mp hb

theorem charsLt_irrefl (l : List Char) : charsLt l l = false := by
  induction l with
  | nil => rfl
  | cons a as ih => simp [charsLt, ih]

theorem charsLt_total (l m : List Char) (h : l ≠ m) :
    charsLt l m = true ∨ charsLt m l = true := by
  induction l generalizing m with
  | nil =>
      cases m with
      | nil => exact absurd rfl h
      | cons b bs => left; rfl
  | cons a as ih =>
      cases m with
      | nil => right; rfl
      | cons b bs =>
          by_cases hab : a < b
          · left; simp [charsLt, hab]
          · by_cases hba : b < a
            · right; simp [charsLt, hba, asymm hba]
            · have hab2 : a = b := le_antisymm (not_lt.mp hba) (not_lt.mp hab)
              subst hab2
              have hne : as ≠ bs := fun hh => h (by rw [hh])
              rcases ih bs hne with h1 | h1
              · left; simp [charsLt, h1]
              · right; simp [charsLt, h1]

theorem charsLt_trans {l m n : List Char} (h1 : charsLt l m = true)
    (h2 : charsLt m n = true) : charsLt l n = true := by
  induction l generalizing m n with
  | nil =>
      cases n with
      | nil =>
          cases m with
          | nil => exact h1
          | cons b bs => simp [charsLt] at h2
      | cons c cs => rfl
  | cons a as ih =>
      cases m with
      | nil => simp [charsLt] at h1
      | cons b bs =>
          cases n with
          | nil => simp [charsLt] at h2
          | cons c cs =>
              simp only [charsLt] at h1 h2 ⊢
              by_cases hab : a < b
              · by_cases hbc : b < c
                · simp [lt_trans hab hbc]
                · by_cases hcb : c < b
                  · rw [if_neg hbc, if_pos hcb] at h2
                    exact Bool.noConfusion h2
                  · have hbc2 : b = c := le_antisymm (not_lt.mp hcb) (not_lt.mp hbc)
                    subst hbc2
                    simp [hab]
              · by_cases hba : b < a
                · rw [if_neg hab, if_pos hba] at h1
                  exact Bool.noConfusion h1
                · have hab2 : a = b := le_antisymm (not_lt.mp hba) (not_lt.mp hab)
                  subst hab2
                  by_cases hbc : a < c
                  · simp [hbc]
                  · by_cases hcb : c < a
                    · rw [if_neg hbc, if_pos hcb] at h2
                      exact Bool.noConfusion h2
                    · have hbc2 : a = c := le_antisymm (not_lt.mp hcb) (not_lt.mp hbc)
                      subst hbc2
                      rw [if_neg (lt_irrefl a), if_neg (lt_irrefl a)] at h1 h2 ⊢
                      exact ih h1 h2

theorem entryLe_iff (v : List ℚ) (a b : VectorStoreEntry) :
    entryLe v a b = true ↔ EntryOrder v a b := by
  unfold entryLe EntryOrder
  by_cases hs : cosScore a.vector v = cosScore b.vector v
  · rw [if_pos hs]
    by_cases hp : a.path = b.path
    · rw [if_pos hp]
      simp [hs, hp]
    · rw [if_neg hp]
      simp [hs, hp]
  · rw [if_neg hs]
    simp [hs]

theorem entryLe_total (v : List ℚ) (a b : VectorStoreEntry) :
    entryLe v a b = true ∨ entryLe v b a = true := by
  rw [entryLe_iff, entryLe_iff]
  unfold EntryOrder
  rcases lt_trichotomy (cosScore a.vector v) (cosScore b.vector v) with h | h | h
  · right; left; exact h
  · by_cases hp : a.path = b.path
    · rcases Nat.le_total a.ordinal b.ordinal with ho | ho
      · left; right; exact ⟨h, Or.inr ⟨hp, ho⟩⟩
      · right; right; exact ⟨h.symm, Or.inr ⟨hp.symm, ho⟩⟩
    · have hne : a.path.data ≠ b.path.data := fun hd => hp (String.ext hd)
      rcases charsLt_total _ _ hne with hc | hc
      · left; right; exact ⟨h, Or.inl ⟨hp, hc⟩⟩
      · right; right; exact ⟨h.symm, Or.inl ⟨Ne.symm hp, hc⟩⟩
  · left; left; exact h

theorem entryLe_trans (v : List ℚ) {a b c : VectorStoreEntry}
    (h1 : entryLe v a b = true) (h2 : entryLe v b c = true) :
    entryLe v a c = true := by
  rw [entryLe_iff] at h1 h2 ⊢
  rcases h1 with h1 | ⟨hs1, ht1⟩
  · rcases h2 with h2 | ⟨hs2, ht2⟩
    · exact Or.inl (lt_trans h2 h1)
    · exact Or.inl (hs2 ▸ h1)
  · rcases h2 with h2 | ⟨hs2, ht2⟩
    · exact Or.inl (hs1 ▸ h2)
    · refine Or.inr ⟨hs1.trans hs2, ?_⟩
      rcases ht1 with ⟨hp1, hc1⟩ | ⟨hp1, ho1⟩
      · rcases ht2 with ⟨hp2, hc2⟩ | ⟨hp2, ho2⟩
        · left
          have hc := charsLt_trans hc1 hc2
          refine ⟨fun hac => ?_, hc⟩
          rw [hac] at hc
          rw [charsLt_irrefl] at hc
          exact Bool.noConfusion hc
        · left; exact ⟨hp2 ▸ hp1, hp2 ▸ hc1⟩
      · rcases ht2 with ⟨hp2, hc2⟩ | ⟨hp2, ho2⟩
        · left
          refine ⟨?_, hp1 ▸ hc2⟩
          rw [hp1]; exact hp2
        · right; exact ⟨hp1.trans hp2, le_trans ho1 ho2⟩

theorem mem_oinsert {α : Type} (le : α → α → Bool) (x z : α) (l : List α) :
    z ∈ oinsert le x l ↔ z = x ∨ z ∈ l := by
  induction l with
  | nil => simp [oinsert]
  | cons y ys ih =>
      unfold oinsert
      by_cases h : le y x = true
      · rw [if_pos h]
        simp only [List.mem_cons, ih]
        tauto
      · rw [if_neg h]
        simp only [List.mem_cons]

theorem pairwise_oinsert {α : Type} (le : α → α → Bool)
    (htot : ∀ a b, le a b = true ∨ le b a = true)
    (htr : ∀ {a b c}, le a b = true → le b c = true → le a c = true)
    (x : α) (l : List α) (hl : List.Pairwise (fun a b => le a b = true) l) :
    List.Pairwise (fun a b => le a b = true) (oinsert le x l) := by
  induction l with
  | nil => simp [oinsert]
  | cons y ys ih =>
      rcases List.pairwise_cons.mp hl with ⟨hy, hys⟩
      unfold oinsert
      by_cases h : le y x = true
      · rw [if_pos h]
        refine List.pairwise_cons.mpr ⟨?_, ih hys⟩
        intro z hz
        rcases (mem_oinsert le x z ys).mp hz with hzx | hzy
        · rw [hzx]; exact h
        · exact hy z hzy
      · rw [if_neg h]
        have hxy : le x y = true := by
          rcases htot y x with hh | hh
          · exact absurd hh h
          · exact hh
        refine List.pairwise_cons.mpr ⟨?_, hl⟩
        intro z hz
        rcases List.mem_cons.mp hz with hzy | hzys
        · rw [hzy]; exact hxy
        · exact htr hxy (hy z hzys)

theorem mem_foldl_oinsert {α : Type} (le : α → α → Bool) (l : List α) :
    ∀ (acc : List α) (z : α),
      z ∈ l.foldl (fun acc x => oinsert le x acc) acc ↔ z ∈ acc ∨ z ∈ l := by
  induction l with
  | nil => intro acc z; simp
  | cons x xs ih =>
      intro acc z
      simp only [List.foldl_cons, ih, mem_oinsert, List.mem_cons]
      tauto

theorem mem_sortStream {α : Type} (le : α → α → Bool) (l : List α) (z : α) :
    z ∈ sortStream le l ↔ z ∈ l := by
  unfold sortStream
  rw [mem_foldl_oinsert]
  simp

theorem pairwise_foldl_oinsert {α : Type} (le : α → α → Bool)
    (htot : ∀ a b, le a b = true ∨ le b a = true)
    (htr : ∀ {a b c}, le a b = true → le b c = true → le a c = true)
    (l : List α) :
    ∀ acc : List α, List.Pairwise (fun a b => le a b = true) acc →
      List.Pairwise (fun a b => le a b = true)
        (l.foldl (fun acc x => oinsert le x acc) acc) := by
  induction l with
  | nil => intro acc h; exact h
  | cons x xs ih =>
      intro acc h
      exact ih _ (pairwise_oinsert le htot htr x acc h)

theorem sortStream_pairwise {α : Type} (le : α → α → Bool)
    (htot : ∀ a b, le a b = true ∨ le b a = true)
    (htr : ∀ {a b c}, le a b = true → le b c = true → le a c = true)
    (l : List α) :
    List.Pairwise (fun a b => le a b = true) (sortStream le l) :=
  pairwise_foldl_oinsert le htot htr l [] List.Pairwise.nil

theorem oinsert_take {α : Type} (le : α → α → Bool) (x : α) (l : List α) :
    ∀ k : ℕ, (oinsert le x l).take k = (oinsert le x (l.take k)).take k := by
  induction l with
  | nil => intro k; simp
  | cons y ys ih =>
      intro k
      cases k with
      | zero => simp
      | succ m =>
          unfold oinsert
          by_cases h : le y x = true
          · rw [if_pos h]
            simp only [List.take_succ_cons, if_pos h]
            rw [ih m]
          · rw [if_neg h]
            simp only [List.take_succ_cons, if_neg h]
            congr 1
            cases m with
            | zero => rfl
            | succ n =>
                rw [List.take_succ_cons, List.take_succ_cons, List.take_take]
                have hmin : min n (n + 1) = n := Nat.min_eq_left (Nat.le_succ n)
                rw [hmin]

theorem foldl_oinsert_take {α : Type} (le : α → α → Bool) (k : ℕ) (l : List α) :
    ∀ acc : List α,
      (l.foldl (fun acc x => oinsert le x acc) acc).take k =
        l.foldl (fun acc x => (oinsert le x acc).take k) (acc.take k) := by
  induction l with
  | nil => intro acc; rfl
  | cons x xs ih =>
      intro acc
      rw [List.foldl_cons, List.foldl_cons, ih]
      congr 1
      rw [oinsert_take]

theorem chunkGo_head (cs ov : ℕ) (T : List Char) (start : ℕ) (c : Chunk)
    (rest : List Chunk) (h : chunkGo cs ov T start = c :: rest) :
    c.start = start ∧ c.stop = min (start + cs) T.length ∧
      c.text = (T.drop start).take cs ∧ rest = chunkGo cs ov T (start + (cs - ov)) := by
  rw [chunkGo] at h
  by_cases hg : start < T.length ∧ ov < cs
  · rw [dif_pos hg] at h
    injection h with h1 h2
    rw [← h1]
    exact ⟨rfl, rfl, rfl, h2.symm⟩
  · rw [dif_neg hg] at h
    exact absurd h (List.cons_ne_nil c rest).symm.elim

theorem chunkGo_drop_flatten (cs ov : ℕ) (T : List Char) (hov : ov < cs) :
    ∀ n start, T.length - start ≤ n →
      ((chunkGo cs ov T start).map (fun c => c.text.drop ov)).flatten =
        T.drop (start + ov) := by
  intro n
  induction n with
  | zero =>
      intro start hle
      have hs : ¬(start < T.length ∧ ov < cs) := by omega
      rw [chunkGo, dif_neg hs]
      rw [List.map_nil, List.flatten_nil]
      rw [List.drop_eq_nil_of_le (by omega)]
  | succ n ih =>
      intro start hle
      rw [chunkGo]
      by_cases hg : start < T.length ∧ ov < cs
      · rw [dif_pos hg]
        rw [List.map_cons, List.flatten_cons]
        have hcv : 0 < cs - ov := Nat.sub_pos_of_lt hov
        rw [ih (start + (cs - ov)) (by omega)]
        have hsum : start + (cs - ov) + ov = start + cs := by omega
        rw [hsum]
        rw [List.drop_take, List.drop_drop]
        have hrhs := List.take_append_drop (cs - ov) (T.drop (start + ov))
        rw [List.drop_drop] at hrhs
        have harith : start + ov + (cs - ov) = start + cs := by omega
        rw [harith] at hrhs
        exact hrhs
      · rw [dif_neg hg]
        rw [List.map_nil, List.flatten_nil]
        have hlen : T.length ≤ start := by
          rcases not_and_or.mp hg with h | h
          · omega
          · exact absurd hov h
        rw [List.drop_eq_nil_of_le (by omega)]

theorem chunkGo_mem (cs ov : ℕ) (T : List Char) :
    ∀ n start c, T.length - start ≤ n → c ∈ chunkGo cs ov T start →
      c.stop = min (c.start + cs) T.length ∧ c.text = (T.drop c.start).take cs := by
  intro n
  induction n with
  | zero =>
      intro start c hle hc
      have hs : ¬(start < T.length ∧ ov < cs) := by omega
      rw [chunkGo, dif_neg hs] at hc
      exact absurd hc (List.not_mem_nil c)
  | succ n ih =>
      intro start c hle hc
      rw [chunkGo] at hc
      by_cases hg : start < T.length ∧ ov < cs
      · rw [dif_pos hg] at hc
        rcases List.mem_cons.mp hc with hc | hc
        · rw [hc]
          exact ⟨rfl, rfl⟩
        · have hcv : 0 < cs - ov := Nat.sub_pos_of_lt hg.2
          exact ih (start + (cs - ov)) c (by omega) hc
      · rw [dif_neg hg] at hc
        exact absurd hc (List.not_mem_nil c)

theorem chunkGo_chain (cs ov : ℕ) (T : List Char) :
    ∀ n start, T.length - start ≤ n →
      List.Chain' (fun a b => b.start = a.start + (cs - ov))
        (chunkGo cs ov T start) := by
  intro n
  induction n with
  | zero =>
      intro start hle
      have hs : ¬(start < T.length ∧ ov < cs) := by omega
      rw [chunkGo, dif_neg hs]
      exact List.chain'_nil
  | succ n ih =>
      intro start hle
      rw [chunkGo]
      by_cases hg : start < T.length ∧ ov < cs
      · rw [dif_pos hg]
        have hcv : 0 < cs - ov := Nat.sub_pos_of_lt hg.2
        have htail := ih (start + (cs - ov)) (by omega)
        refine List.chain'_cons'.mpr ⟨?_, htail⟩
        intro b hb
        cases hrest : chunkGo cs ov T (start + (cs - ov)) with
        | nil => rw [hrest] at hb; exact absurd hb (by simp)
        | cons c0 rest0 =>
            rw [hrest] at hb
            simp only [List.head?_cons, Option.mem_def, Option.some.injEq] at hb
            have hh := chunkGo_head cs ov T _ _ _ hrest
            rw [hb] at hh
            simpa using hh.1
      · rw [dif_neg hg]
        exact List.chain'_nil

theorem chunkGo_getLast (cs ov : ℕ) (T : List Char) (hov : ov < cs) :
    ∀ n start c, T.length - start ≤ n →
      (chunkGo cs ov T start).getLast? = some c → c.stop = T.length := by
  intro n
  induction n with
  | zero =>
      intro start c hle hc
      have hs : ¬(start < T.length ∧ ov < cs) := by omega
      rw [chunkGo, dif_neg hs] at hc
      exact absurd hc (by simp)
  | succ n ih =>
      intro start c hle hc
      rw [chunkGo] at hc
      by_cases hg : start < T.length ∧ ov < cs
      · rw [dif_pos hg] at hc
        have hcv : 0 < cs - ov := Nat.sub_pos_of_lt hov
        cases hrest : chunkGo cs ov T (start + (cs - ov)) with
        | nil =>
            rw [hrest] at hc
            simp only [List.getLast?_singleton, Option.some.injEq] at hc
            have hstop : T.length ≤ start + (cs - ov) := by
              by_contra hlt
              push_neg at hlt
              rw [chunkGo, dif_pos ⟨hlt, hov⟩] at hrest
              exact absurd hrest (List.cons_ne_nil _ _)
            have hsub : cs - ov ≤ cs := Nat.sub_le cs ov
            have hge : T.length ≤ start + cs := by omega
            rw [← hc]
            exact Nat.min_eq_right hge
        | cons c0 rest0 =>
            rw [hrest] at hc
            rw [List.getLast?_cons_cons] at hc
            rw [← hrest] at hc
            exact ih (start + (cs - ov)) c (by omega) hc
      · rw [dif_neg hg] at hc
        exact absurd hc (by simp)

theorem chunkText_reconstruct (cs ov : ℕ) (T : List Char) (hov : ov < cs) :
    reconstruct ov (chunkText cs ov T) = T := by
  unfold chunkText
  cases hT : chunkGo cs ov T 0 with
  | nil =>
      rw [chunkGo] at hT
      by_cases hg : 0 < T.length ∧ ov < cs
      · rw [dif_pos hg] at hT
        exact absurd hT (List.cons_ne_nil _ _)
      · have hlen : T.length = 0 := by
          rcases not_and_or.mp hg with h | h
          · omega
          · exact absurd hov h
        rw [List.length_eq_zero] at hlen
        rw [hlen]
        rfl
  | cons c rest =>
      have hh := chunkGo_head cs ov T 0 c rest hT
      simp only [reconstruct]
      rw [hh.2.2.1, hh.2.2.2]
      rw [chunkGo_drop_flatten cs ov T hov (T.length - (0 + (cs - ov))) _ le_rfl]
      have hsum : 0 + (cs - ov) + ov = cs := by omega
      rw [hsum, List.drop_zero]
      exact List.take_append_drop cs T

theorem upsertOne_idem (store : List VectorStoreEntry) (e : VectorStoreEntry) :
    upsertOne (upsertOne store e) e = upsertOne store e := by
  unfold upsertOne
  by_cases hany : store.any (fun x => x.id == e.id) = true
  · rw [if_pos hany]
    have hany2 :
        (store.map (fun x => if x.id == e.id then e else x)).any
          (fun x => x.id == e.id) = true := by
      rcases List.any_eq_true.mp hany with ⟨x, hx, hxe⟩
      refine List.any_eq_true.mpr ⟨e, ?_, by simp⟩
      exact List.mem_map.mpr ⟨x, hx, by simp [hxe]⟩
    rw [if_pos hany2, List.map_map]
    apply List.map_congr_left
    intro x _
    by_cases hxe : (x.id == e.id) = true
    · simp [Function.comp, hxe]
    · simp [Function.comp, hxe]
  · rw [if_neg hany]
    have hfalse : store.any (fun x => x.id == e.id) = false :=
      Bool.eq_false_iff.mpr hany
    have hall := List.any_eq_false.mp hfalse
    have hany2 : ((store ++ [e]).any (fun x => x.id == e.id)) = true :=
      List.any_eq_true.mpr ⟨e, by simp, by simp⟩
    rw [if_pos hany2, List.map_append]
    have hmap : store.map (fun x => if x.id == e.id then e else x) = store := by
      have h2 : store.map (fun x => if x.id == e.id then e else x) = store.map id := by
        apply List.map_congr_left
        intro x hx
        simp only [id]
        rw [if_neg (hall x hx)]
      rw [h2, List.map_id]
    rw [hmap]
    congr 1
    simp

theorem length_filter_not_add {α : Type} (p : α → Bool) (l : List α) :
    (l.filter (fun x => !(p x))).length + (l.filter p).length = l.length := by
  induction l with
  | nil => rfl
  | cons x xs ih =>
      rw [List.filter_cons, List.filter_cons]
      cases h : p x with
      | true =>
          simp only [h, Bool.not_true, Bool.false_eq_true, if_false, if_true,
            List.length_cons]
          omega
      | false =>
          simp only [h, Bool.not_false, Bool.false_eq_true, if_false, if_true,
            List.length_cons]
          omega

/-- C1: for every text and every configuration with `overlap < chunk_size`,
the chunker covers the text end-to-end with no gaps — empty text yields no
chunks, the first chunk starts at offset 0, consecutive start offsets
advance by `chunk_size − overlap`, every chunk carries the slice at its
offsets with the final chunk clipped so its end offset is the text length,
and concatenating the chunk texts with overlaps removed reconstructs the
text exactly. -/
theorem claim_C1_chunker (cs ov : ℕ) (T : List Char) (hov : ov < cs) :
    (T = [] → chunkText cs ov T = []) ∧
    (∀ c rest, chunkText cs ov T = c :: rest → c.start = 0) ∧
    List.Chain' (fun a b => b.start = a.start + (cs - ov)) (chunkText cs ov T) ∧
    (∀ c ∈ chunkText cs ov T,
        c.stop = min (c.start + cs) T.length ∧ c.text = (T.drop c.start).take cs) ∧
    (∀ c, (chunkText cs ov T).getLast? = some c → c.stop = T.length) ∧
    reconstruct ov (chunkText cs ov T) = T := by
  refine ⟨?_, ?_, ?_, ?_, ?_, ?_⟩
  · intro hT
    rw [hT, chunkText, chunkGo, dif_neg (by simp)]
  · intro c rest h
    exact (chunkGo_head cs ov T 0 c rest h).1
  · exact chunkGo_chain cs ov T T.length 0 (by omega)
  · intro c hc
    exact chunkGo_mem cs ov T T.length 0 c (by omega) hc
  · intro c hc
    exact chunkGo_getLast cs ov T hov T.length 0 c (by omega) hc
  · exact chunkText_reconstruct cs ov T hov

/-- Witness for C1: a concrete text of five characters with
`chunk_size = 3`, `overlap = 1` is reconstructed exactly. -/
theorem claim_C1_witness :
    1 < 3 ∧ reconstruct 1 (chunkText 3 1 (['h', 'e', 'l', 'l', 'o'])) =
      ['h', 'e', 'l', 'l', 'o'] :=
  ⟨by decide, (claim_C1_chunker 3 1 (['h', 'e', 'l', 'l', 'o']) (by decide)).2.2.2.2.2⟩

/-- C2: the native indexed backend (modelled as streaming bounded top-k
selection) and the JSON brute-force fallback (full sort then truncate)
return identical ordered (entry, score) sequences for every store, query
vector and k. -/
theorem claim_C2_backend_equivalence (store : List VectorStoreEntry)
    (v : List ℚ) (k : ℕ) : queryA store v k = queryB store v k := by
  unfold queryA queryB sortStream
  rw [foldl_oinsert_take, List.take_nil]

/-- C3: upserting the same entry a second time is a no-op — `count` and
the results of `query` are unchanged by the repeat. -/
theorem claim_C3_upsert_idempotent (store : List VectorStoreEntry)
    (e : VectorStoreEntry) :
    count (upsert (upsert store [e]) [e]) = count (upsert store [e]) ∧
    ∀ (v : List ℚ) (k : ℕ),
      queryB (upsert (upsert store [e]) [e]) v k = queryB (upsert store [e]) v k := by
  have h : upsert (upsert store [e]) [e] = upsert store [e] := upsertOne_idem store e
  rw [h]
  exact ⟨rfl, fun v k => rfl⟩

/-- C4: `query` returns at most `k` entries, ordered by descending
similarity score with ties broken by ascending document path then
ascending chunk ordinal, and every returned score is the entry's cosine
score, lying in `[-1, 1]`. -/
theorem claim_C4_query_contract (store : List VectorStoreEntry) (v : List ℚ)
    (k : ℕ) :
    (queryB store v k).length ≤ k ∧
    List.Pairwise (fun p q : VectorStoreEntry × ℚ =>
        q.2 < p.2 ∨ (p.2 = q.2 ∧
          ((p.1.path ≠ q.1.path ∧ charsLt p.1.path.data q.1.path.data = true) ∨
           (p.1.path = q.1.path ∧ p.1.ordinal ≤ q.1.ordinal))))
      (queryB store v k) ∧
    ∀ p ∈ queryB store v k, -1 ≤ p.2 ∧ p.2 ≤ 1 ∧ p.2 = cosScore p.1.vector v := by
  refine ⟨?_, ?_, ?_⟩
  · unfold queryB
    rw [List.length_map]
    exact List.length_take_le k _
  · unfold queryB
    have hsorted := sortStream_pairwise (entryLe v) (entryLe_total v)
      (fun h1 h2 => entryLe_trans v h1 h2) store
    have htake := List.Pairwise.sublist (List.take_sublist k _) hsorted
    refine List.Pairwise.map _ ?_ htake
    intro a b hab
    exact (entryLe_iff v a b).mp hab
  · intro p hp
    unfold queryB at hp
    rcases List.mem_map.mp hp with ⟨e, _, hfe⟩
    rcases cosScore_mem_Icc e.vector v with ⟨h1, h2⟩
    rw [← hfe]
    exact ⟨h1, h2, rfl⟩

/-- Witness for C4 at a concrete two-entry store: the top result of a
k = 1 query is in the store's ranking and its score is the cosine score,
within [-1, 1]. -/
theorem claim_C4_witness :
    (sampleEntryA, (1 : ℚ)) ∈ queryB [sampleEntryA, sampleEntryB] [1, 0] 1 ∧
    (-1 ≤ (1 : ℚ) ∧ (1 : ℚ) ≤ 1 ∧ (1 : ℚ) = cosScore sampleEntryA.vector [1, 0]) := by
  have hmem : (sampleEntryA, (1 : ℚ)) ∈ queryB [sampleEntryA, sampleEntryB] [1, 0] 1 := by
    norm_num [queryB, sortStream, oinsert, entryLe, cosScore, dot, norm2,
      sampleEntryA, sampleEntryB]
  exact ⟨hmem,
    (claim_C4_query_contract [sampleEntryA, sampleEntryB] [1, 0] 1).2.2
      (sampleEntryA, (1 : ℚ)) hmem⟩

/-- C5: `delete_by_document d` removes exactly the entries of document
`d` — the count drops by the number of `d`'s entries, an entry remains
stored iff it was stored and belongs to another document, and `query`
never returns an entry of `d` afterwards. -/
theorem claim_C5_delete_by_document (store : List VectorStoreEntry) (d : String) :
    count (delete_by_document store d) =
      count store - (store.filter (fun e => e.documentId == d)).length ∧
    (∀ e : VectorStoreEntry, e ∈ delete_by_document store d ↔
      e ∈ store ∧ e.documentId ≠ d) ∧
    ∀ (v : List ℚ) (k : ℕ) (p : VectorStoreEntry × ℚ),
      p ∈ queryB (delete_by_document store d) v k → p.1.documentId ≠ d := by
  refine ⟨?_, ?_, ?_⟩
  · unfold count delete_by_document
    have := length_filter_not_add (fun e => e.documentId == d) store
    omega
  · intro e
    unfold delete_by_document
    rw [List.mem_filter]
    simp
  · intro v k p hp
    unfold queryB at hp
    rcases List.mem_map.mp hp with ⟨e, he, hfe⟩
    have hmem : e ∈ sortStream (entryLe v) (delete_by_document store d) :=
      List.mem_of_mem_take he
    rw [mem_sortStream] at hmem
    unfold delete_by_document at hmem
    rcases List.mem_filter.mp hmem with ⟨_, hdoc⟩
    have hne : e.documentId ≠ d := by simpa using hdoc
    rw [← hfe]
    exact hne

/-- Witness for C5 at a concrete store: after deleting document d1 the
query still returns the d2 entry, and, by the theorem, it does not belong
to d1. -/
theorem claim_C5_witness :
    (sampleEntryD2, (1 : ℚ)) ∈
      queryB (delete_by_document [sampleEntryD1, sampleEntryD2] ("d1")) [1] 1 ∧
    sampleEntryD2.documentId ≠ "d1" := by
  have hmem : (sampleEntryD2, (1 : ℚ)) ∈
      queryB (delete_by_document [sampleEntryD1, sampleEntryD2] ("d1")) [1] 1 := by
    have hne : (("d2" : String) == "d1") = false := by decide
    norm_num [queryB, sortStream, oinsert, entryLe, cosScore, dot, norm2,
      delete_by_document, sampleEntryD1, sampleEntryD2, hne]
  exact ⟨hmem,
    (claim_C5_delete_by_document [sampleEntryD1, sampleEntryD2] ("d1")).2.2
      [1] 1 (sampleEntryD2, (1 : ℚ)) hmem⟩

/-- C7: when the vector store is empty, or the store query yields zero
candidates, `retrieve` returns the empty sequence. -/
theorem claim_C7_empty_retrieval (embed : String → List ℚ)
    (store : List VectorStoreEntry) (q : String) (k budget : ℕ)
    (h : store = [] ∨ queryB store (embed q) (3 * k) = []) :
    retrieve embed store q k budget = [] := by
  have hc : queryB store (embed q) (3 * k) = [] := by
    rcases h with h | h
    · rw [h]
      unfold queryB sortStream
      rw [List.foldl_nil, List.take_nil, List.map_nil]
    · exact h
  unfold retrieve
  rw [hc]
  rfl

/-- Witness for C7: retrieving from the empty store returns nothing. -/
theorem claim_C7_witness :
    retrieve (fun _ => [1]) [] ("capital of France") 2 100 = [] :=
  claim_C7_empty_retrieval (fun _ => [1]) [] ("capital of France") 2 100 (Or.inl rfl)

theorem find?_same_path_hash :
    ∀ (docs1 docs2 : List DocRecord),
      docs1.map (fun d => (d.path, d.hash)) = docs2.map (fun d => (d.path, d.hash)) →
      ∀ p : String,
        Option.map (fun d : DocRecord => (d.path, d.hash))
            (docs1.find? (fun d => d.path == p)) =
          Option.map (fun d : DocRecord => (d.path, d.hash))
            (docs2.find? (fun d => d.path == p)) := by
  intro docs1
  induction docs1 with
  | nil =>
      intro docs2 h p
      cases docs2 with
      | nil => rfl
      | cons d ds => exact absurd h (by simp)
  | cons d1 ds1 ih =>
      intro docs2 h p
      cases docs2 with
      | nil => exact absurd h (by simp)
      | cons d2 ds2 =>
          rw [List.map_cons, List.map_cons] at h
          injection h with hhead htail
          have hpath : d1.path = d2.path := congrArg Prod.fst hhead
          by_cases hc : (d1.path == p) = true
          · have hc1 : (fun d : DocRecord => d.path == p) d1 = true := hc
            have hc2 : (fun d : DocRecord => d.path == p) d2 = true := by
              show (d2.path == p) = true
              rw [← hpath]
              exact hc
            rw [List.find?_cons_of_pos ds1 hc1, List.find?_cons_of_pos ds2 hc2]
            simp only [Option.map_some']
            exact congrArg some hhead
          · have hc1 : ¬((fun d : DocRecord => d.path == p) d1 = true) := hc
            have hc2 : ¬((fun d : DocRecord => d.path == p) d2 = true) := by
              show ¬((d2.path == p) = true)
              rw [← hpath]
              exact hc
            rw [List.find?_cons_of_neg ds1 hc1, List.find?_cons_of_neg ds2 hc2]
            exact ih ds2 htail p

theorem processFile_skip (embed : List Char → List ℚ) (cs ov : ℕ)
    (st0 st : IngestState) (f : SrcFile)
    (hf : ∃ d, st0.docs.find? (fun r => r.path == f.path) = some d ∧ d.hash = f.hash)
    (hmap : st.docs.map (fun d => (d.path, d.hash)) =
      st0.docs.map (fun d => (d.path, d.hash))) :
    (processFile embed cs ov st f).store = st.store ∧
    (processFile embed cs ov st f).embedCalls = st.embedCalls ∧
    (processFile embed cs ov st f).docs.map (fun d => (d.path, d.hash)) =
      st0.docs.map (fun d => (d.path, d.hash)) := by
  rcases hf with ⟨d, hfind, hhash⟩
  have htrans := find?_same_path_hash st.docs st0.docs hmap f.path
  rw [hfind] at htrans
  cases hcur : st.docs.find? (fun r => r.path == f.path) with
  | none =>
      rw [hcur] at htrans
      exact absurd htrans (by simp)
  | some d1 =>
      rw [hcur] at htrans
      simp only [Option.map_some', Option.some.injEq, Prod.mk.injEq] at htrans
      have hd1hash : d1.hash = f.hash := htrans.2.trans hhash
      unfold processFile
      rw [hcur]
      dsimp only
      have hbeq : (d1.hash == f.hash) = true := by simp [hd1hash]
      rw [if_pos hbeq]
      by_cases hmt : (d1.mtime == f.mtime) = true
      · rw [if_pos hmt]
        exact ⟨rfl, rfl, hmap⟩
      · rw [if_neg hmt]
        refine ⟨rfl, rfl, ?_⟩
        rw [List.map_map]
        have hcomp :
            st.docs.map ((fun d : DocRecord => (d.path, d.hash)) ∘
              (fun r => if r.path == f.path then { r with mtime := f.mtime } else r)) =
              st.docs.map (fun d => (d.path, d.hash)) := by
          apply List.map_congr_left
          intro r _
          by_cases hr : (r.path == f.path) = true
          · simp [Function.comp, hr]
          · simp [Function.comp, hr]
        rw [hcomp, hmap]

theorem foldl_processFile_skip (embed : List Char → List ℚ) (cs ov : ℕ)
    (st0 : IngestState) :
    ∀ (files : List SrcFile) (st : IngestState),
      (∀ f ∈ files, ∃ d, st0.docs.find? (fun r => r.path == f.path) = some d ∧
        d.hash = f.hash) →
      st.store = st0.store → st.embedCalls = st0.embedCalls →
      st.docs.map (fun d => (d.path, d.hash)) =
        st0.docs.map (fun d => (d.path, d.hash)) →
      (files.foldl (processFile embed cs ov) st).store = st0.store ∧
      (files.foldl (processFile embed cs ov) st).embedCalls = st0.embedCalls ∧
      (files.foldl (processFile embed cs ov) st).docs.map
          (fun d => (d.path, d.hash)) =
        st0.docs.map (fun d => (d.path, d.hash)) := by
  intro files
  induction files with
  | nil =>
      intro st _ h1 h2 h3
      exact ⟨h1, h2, h3⟩
  | cons f fs ih =>
      intro st hfiles h1 h2 h3
      have hstep := processFile_skip embed cs ov st0 st f
        (hfiles f (List.mem_cons_self f fs)) h3
      rw [List.foldl_cons]
      exact ih _ (fun g hg => hfiles g (List.mem_cons_of_mem f hg))
        (hstep.1.trans h1) (hstep.2.1.trans h2) hstep.2.2

/-- C6: a full reindex pass over a folder whose files are all unchanged
(every file has a document record with identical content hash, and no
record's file has disappeared) performs zero embedding calls and leaves
the vector store, hence `count()`, unchanged. -/
theorem claim_C6_reindex_unchanged (embed : List Char → List ℚ) (cs ov : ℕ)
    (files : List SrcFile) (st : IngestState)
    (hhash : ∀ f ∈ files, ∃ d, st.docs.find? (fun r => r.path == f.path) = some d ∧
      d.hash = f.hash)
    (hpresent : ∀ d ∈ st.docs, files.any (fun f => f.path == d.path) = true) :
    (ingestPass embed cs ov files st).embedCalls = st.embedCalls ∧
    (ingestPass embed cs ov files st).store = st.store ∧
    count (ingestPass embed cs ov files st).store = count st.store := by
  have hfold := foldl_processFile_skip embed cs ov st files st hhash rfl rfl rfl
  have hgone : (files.foldl (processFile embed cs ov) st).docs.filter
      (fun d => !(files.any (fun f => f.path == d.path))) = [] := by
    rw [List.filter_eq_nil_iff]
    intro d hd
    have hmem : (d.path, d.hash) ∈
        (files.foldl (processFile embed cs ov) st).docs.map
          (fun r => (r.path, r.hash)) :=
      List.mem_map_of_mem _ hd
    rw [hfold.2.2] at hmem
    rcases List.mem_map.mp hmem with ⟨d0, hd0, hph⟩
    have hpath : d0.path = d.path := congrArg Prod.fst hph
    have hany := hpresent d0 hd0
    rw [hpath] at hany
    simp [hany]
  have hcalls : (ingestPass embed cs ov files st).embedCalls = st.embedCalls :=
    hfold.2.1
  have hstore : (ingestPass embed cs ov files st).store = st.store := by
    show ((files.foldl (processFile embed cs ov) st).docs.filter
        (fun d => !(files.any (fun f => f.path == d.path)))).foldl
        (fun s d => delete_by_document s d.path)
        (files.foldl (processFile embed cs ov) st).store = st.store
    rw [hgone, List.foldl_nil]
    exact hfold.1
  refine ⟨hcalls, hstore, ?_⟩
  unfold count
  rw [hstore]

/-- Witness for C6: a one-file folder whose document record matches the
file hash is reindexed with zero embedding calls and an unchanged store. -/
theorem claim_C6_witness :
    (ingestPass (fun _ => [1]) 3 1
        [{ path := "a.md", hash := 7, mtime := 2, text := ['x'] }]
        { docs := [{ path := "a.md", hash := 7, mtime := 1 }]
          store := [{ id := "a.md#0", documentId := "a.md", vector := [1],
                      path := "a.md", start := 0, stop := 1, text := ['x'],
                      ordinal := 0 }]
          embedCalls := 0 }).embedCalls = 0 ∧
    count (ingestPass (fun _ => [1]) 3 1
        [{ path := "a.md", hash := 7, mtime := 2, text := ['x'] }]
        { docs := [{ path := "a.md", hash := 7, mtime := 1 }]
          store := [{ id := "a.md#0", documentId := "a.md", vector := [1],
                      path := "a.md", start := 0, stop := 1, text := ['x'],
                      ordinal := 0 }]
          embedCalls := 0 }).store = 1 := by
  have happ := claim_C6_reindex_unchanged (fun _ => [1]) 3 1
    [{ path := "a.md", hash := 7, mtime := 2, text := ['x'] }]
    { docs := [{ path := "a.md", hash := 7, mtime := 1 }]
      store := [{ id := "a.md#0", documentId := "a.md", vector := [1],
                  path := "a.md", start := 0, stop := 1, text := ['x'],
                  ordinal := 0 }]
      embedCalls := 0 }
    (by
      intro f hf
      rw [List.mem_singleton] at hf
      subst hf
      exact ⟨{ path := "a.md", hash := 7, mtime := 1 }, by decide, by decide⟩)
    (by
      intro d hd
      rw [List.mem_singleton] at hd
      subst hd
      decide)
  exact ⟨happ.1, happ.2.2⟩

/-- C8: handleDrop clears the indexed flag before invoking index_folder
and sets it true only after the invocation resolves successfully — the
first three effects are exactly set-folder, set-indexed-false and the
invocation, the rest of the trace sets the flag on success or alerts on
rejection, and replaying the trace leaves indexed true exactly when the
invocation succeeded. -/
theorem claim_C8_handleDrop_indexed (s : AppState) (path : String)
    (r : Except String Unit) :
    (handleDrop path r).take 3 =
      [AppEvent.setFolder path, AppEvent.setIndexed false,
        AppEvent.invokeIndex path] ∧
    (handleDrop path r).drop 3 =
      (match r with
       | Except.ok _ => [AppEvent.setIndexed true]
       | Except.error e => [AppEvent.alertError ("Indexing failed: " ++ e)]) ∧
    (applyEvents s (handleDrop path r)).indexed =
      (match r with
       | Except.ok _ => true
       | Except.error _ => false) ∧
    (applyEvents s (handleDrop path r)).selectedFolder = some path := by
  cases r with
  | ok u => exact ⟨rfl, rfl, rfl, rfl⟩
  | error e => exact ⟨rfl, rfl, rfl, rfl⟩

/-- C9: invoking send while the input is empty performs no chat_query
call and leaves the chat state, in particular the message list,
unchanged. -/
theorem claim_C9_send_empty_input (st : ChatState)
    (respond : String → List Message → Option String)
    (nowId nowIso laterId laterIso : String) (h : st.input = "") :
    send st respond nowId nowIso laterId laterIso = (st, none) := by
  unfold send
  rw [if_pos h]

/-- Witness for C9: with an empty input and a nonempty message list the
state is untouched and no call is made. -/
theorem claim_C9_witness :
    send
      { messages := [{ id := "0", role := Role.user, content := "earlier",
                       timestamp := none }]
        input := "" }
      (fun _ _ => none) ("1") ("t1") ("2") ("t2") =
      ({ messages := [{ id := "0", role := Role.user, content := "earlier",
                        timestamp := none }]
         input := "" }, none) :=
  claim_C9_send_empty_input _ (fun _ _ => none) ("1") ("t1") ("2") ("t2") rfl

/-- C10: whenever send invokes chat_query, the history it passes is the
message list as it stood before the new user message was appended — the
call carries exactly the pre-state messages, and the resulting message
list is that history with the fresh user message (and the assistant
reply) appended strictly after it. -/
theorem claim_C10_history_excludes_query (st : ChatState)
    (respond : String → List Message → Option String)
    (nowId nowIso laterId laterIso : String) (h : st.input ≠ "") :
    (send st respond nowId nowIso laterId laterIso).2 =
      some { query := st.input, history := st.messages } ∧
    ∃ userMsg assistantMsg : Message,
      userMsg.content = st.input ∧ userMsg.role = Role.user ∧
      assistantMsg.role = Role.assistant ∧
      (send st respond nowId nowIso laterId laterIso).1.messages =
        st.messages ++ [userMsg, assistantMsg] := by
  unfold send
  rw [if_neg h]
  exact ⟨rfl, _, _, rfl, rfl, rfl, rfl⟩

/-- Witness for C10: a concrete send passes a history equal to the
pre-existing message list, not containing the new query message. -/
theorem claim_C10_witness :
    (send
        { messages := [{ id := "0", role := Role.user, content := "earlier",
                         timestamp := none }]
          input := "hi" }
        (fun _ _ => some ("ok")) ("1") ("t1") ("2") ("t2")).2 =
      some { query := "hi",
             history := [{ id := "0", role := Role.user, content := "earlier",
                           timestamp := none }] } :=
  (claim_C10_history_excludes_query _ (fun _ _ => some ("ok"))
    ("1") ("t1") ("2") ("t2") (by decide)).1

end LocalRAG
